import Mathlib

/-!
Verification of the map-routing core: terrain generation, terrain
classification, the cost model, and the A* pathfinding engine.

The definitions below are a shallow embedding of the TypeScript source:
  * terrainConstants.ts : boundaries, terrain definitions, cost table
  * noise.ts            : fractal noise field generation and normalization
  * mapGenerator.ts     : classification with visibility filtering
  * pathfinding.ts      : A* with an indexed binary heap

JavaScript numbers are modelled as exact rationals (for the generation and
classification pipeline, whose arithmetic is field arithmetic) and, where a
square root is taken, as elements of an arbitrary linearly ordered field
together with an explicit square-root function parameter; instantiating that
parameter with `Real.sqrt` at `ℝ` gives the idealized real-number model of
the source. The JavaScript value `Infinity` that the cost table uses as an
impassability sentinel is modelled by a dedicated constructor.
-/

namespace MapRouting

/-! ### terrainConstants.ts -/

/-- The record of terrain boundaries (`TERRAIN_BOUNDARIES` in the source). -/
structure BoundariesT where
  water : ℚ
  sand : ℚ
  land : ℚ
  hills : ℚ
  mountain : ℚ
  snow : ℚ

/-- `TERRAIN_BOUNDARIES` from terrainConstants.ts. -/
def TERRAIN_BOUNDARIES : BoundariesT :=
  ⟨0.40, 0.45, 0.65, 0.75, 0.85, 0.95⟩

/-- A JavaScript number used as a movement cost: either a finite rational or
the `Infinity` sentinel. -/
inductive JsCost where
  | fin (q : ℚ)
  | inf
deriving DecidableEq

/-- One entry of `TERRAIN_DEFINITIONS` (the color metadata is outside the
claims' scope and omitted; the claims use only `cost` and `boundary`). -/
structure TerrainDefinition where
  name : String
  cost : JsCost
  boundary : ℚ

/-- `TERRAIN_DEFINITIONS` from terrainConstants.ts, as the string-keyed
lookup the source record provides (`TERRAIN_DEFINITIONS[terrain]`). -/
def TERRAIN_DEFINITIONS (t : String) : Option TerrainDefinition :=
  if t = "water" then some ⟨"water", .inf, TERRAIN_BOUNDARIES.water⟩
  else if t = "sand" then some ⟨"sand", .fin 3, TERRAIN_BOUNDARIES.sand⟩
  else if t = "land" then some ⟨"land", .fin 1, TERRAIN_BOUNDARIES.land⟩
  else if t = "hills" then some ⟨"hills", .fin 2, TERRAIN_BOUNDARIES.hills⟩
  else if t = "mountain" then some ⟨"mountain", .fin 4, TERRAIN_BOUNDARIES.mountain⟩
  else if t = "snow" then some ⟨"snow", .fin 5, TERRAIN_BOUNDARIES.snow⟩
  else none

/-- `getTerrainCost` from terrainConstants.ts:
`TERRAIN_DEFINITIONS[terrain]?.cost ?? 1`. -/
def getTerrainCost (t : String) : JsCost :=
  match TERRAIN_DEFINITIONS t with
  | some d => d.cost
  | none => .fin 1

/-- `getTerrainOrder` from terrainConstants.ts: terrain types from lowest to
highest elevation. -/
def getTerrainOrder : List String :=
  ["water", "sand", "land", "hills", "mountain", "snow"]

/-! ### noise.ts -/

/-- `getTerrainType` from noise.ts: the cascade of strict threshold tests. -/
def getTerrainType (val : ℚ) : String :=
  if val < TERRAIN_BOUNDARIES.water then "water"
  else if val < TERRAIN_BOUNDARIES.sand then "sand"
  else if val < TERRAIN_BOUNDARIES.land then "land"
  else if val < TERRAIN_BOUNDARIES.hills then "hills"
  else if val < TERRAIN_BOUNDARIES.mountain then "mountain"
  else if val < TERRAIN_BOUNDARIES.snow then "snow"
  else "snow"

/-- The octave loop of `generateFractalNoise`: given the remaining octave
count, the current amplitude and frequency, return the accumulated
`(value, maxValue)` pair of the loop in noise.ts. -/
def fractalAux (noise2D : ℚ → ℚ → ℚ) (x y : ℚ) (persistence : ℚ) :
    ℕ → ℚ → ℚ → ℚ × ℚ
  | 0, _, _ => (0, 0)
  | n + 1, amplitude, frequency =>
    let rest := fractalAux noise2D x y persistence n (amplitude * persistence) (frequency * 2)
    (noise2D (x * frequency) (y * frequency) * amplitude + rest.1, amplitude + rest.2)

/-- `generateFractalNoise` from noise.ts. The source's default arguments are
`octaves = 4`, `persistence = 0.5`; `generateMap` calls it with the defaults. -/
def generateFractalNoise (noise2D : ℚ → ℚ → ℚ) (x y : ℚ)
    (octaves : ℕ) (persistence : ℚ) : ℚ :=
  let vm := fractalAux noise2D x y persistence octaves 1 1
  (vm.1 / vm.2 + 1) / 2

/-- The first pass of `generateMap`: the raw fractal-noise field. The noise
primitive `makeNoise2D` is an external library seeded by `Math.random`; it is
modelled as an explicit function parameter, so that a theorem quantifying
over `noise2D` covers every possible seed. Dimensions are integers; the
JavaScript `for` loops execute `max 0` iterations for negative bounds, which
`Int.toNat` reproduces. -/
def rawNoiseMap (noise2D : ℚ → ℚ → ℚ) (width height : ℤ) : List (List ℚ) :=
  (List.range height.toNat).map (fun (y : ℕ) =>
    (List.range width.toNat).map (fun (x : ℕ) =>
      generateFractalNoise noise2D ((x : ℚ) / 50) ((y : ℚ) / 50) 4 (1 / 2)))

/-- Minimum of all cells of a field. The source tracks the running minimum
starting from `Infinity`; for a nonempty field this is the list minimum, and
for an empty field the value is never used (the normalization pass visits no
cell), so the default `0` is immaterial. -/
def fieldMin (f : List (List ℚ)) : ℚ := f.flatten.min?.getD 0

/-- Maximum of all cells of a field (running maximum from `-Infinity` in the
source; see `fieldMin`). -/
def fieldMax (f : List (List ℚ)) : ℚ := f.flatten.max?.getD 0

/-- `generateMap` from noise.ts: the raw pass followed by the second,
global min/max normalization pass `(v - min) / (max - min)`. -/
def generateMap (noise2D : ℚ → ℚ → ℚ) (width height : ℤ) : List (List ℚ) :=
  let map := rawNoiseMap noise2D width height
  let minValue := fieldMin map
  let maxValue := fieldMax map
  map.map (fun row => row.map (fun v => (v - minValue) / (maxValue - minValue)))

/-! ### mapGenerator.ts -/

/-- The `terrainRanges` table local to `generateTerrainData`. -/
def terrainRanges : List (String × ℚ × ℚ) :=
  [("water", 0, 0.40), ("sand", 0.40, 0.45), ("land", 0.45, 0.65),
   ("hills", 0.65, 0.75), ("mountain", 0.75, 0.85), ("snow", 0.85, 0.95)]

/-- `terrainRanges.find(r => r.terrain === terrain)` projected to the range. -/
def findRange (t : String) : Option (ℚ × ℚ) :=
  (terrainRanges.find? (fun r => r.1 = t)).map (fun r => r.2)

/-- Truthiness of `terrainVisibility[terrain]`: a missing key is `undefined`,
which is falsy. The visibility object is modelled as an association list in
key-insertion order (`Object.keys` enumerates in that order). -/
def visLookup (vis : List (String × Bool)) (t : String) : Bool :=
  (vis.lookup t).getD false

/-- `Object.keys(terrainVisibility).filter(t => terrainVisibility[t])`. -/
def enabledOf (vis : List (String × Bool)) : List String :=
  (vis.filter (fun p => p.2)).map (fun p => p.1)

/-- One step of the closest-available-terrain loop: the accumulator is the
pair `(closestTerrain, minDistance)`, `none` standing for the initial
`Infinity` distance. -/
def closestFold (noiseValue : ℚ) (acc : String × Option ℚ) (t : String) :
    String × Option ℚ :=
  match findRange t with
  | none => acc
  | some r =>
    let terrainCenter := (r.1 + r.2) / 2
    let distance := |noiseValue - terrainCenter|
    match acc.2 with
    | none => (t, some distance)
    | some minDistance =>
      if distance < minDistance then (t, some distance) else acc

/-- The closest-available-terrain computation of `generateTerrainData`,
initialized with `availableTerrains[0]`. -/
def closestTerrain (avail : List String) (noiseValue : ℚ) : String :=
  (avail.foldl (closestFold noiseValue) (avail.headD "", none)).1

/-- Integer range `[lo, hi]` as a list (empty when `hi < lo`), modelling the
inclusive `for` loops of `checkNearWater`. -/
def intRange (lo hi : ℤ) : List ℤ :=
  (List.range (hi + 1 - lo).toNat).map (fun (i : ℕ) => lo + (i : ℤ))

/-- Cell access `noiseMap[r][c]` for a rational field. Used only at indices
that are in bounds, where the default is immaterial. -/
def cellAtQ (nm : List (List ℚ)) (r c : ℤ) : ℚ :=
  (nm.getD r.toNat []).getD c.toNat 0

/-- `checkNearWater` from mapGenerator.ts. The source tests
`Math.sqrt((r-row)^2 + (c-col)^2) <= radius`; for a nonnegative radius this
is equivalent to the square-free test `(r-row)^2 + (c-col)^2 <= radius^2`
used here (`checkNearWater_sqrt_equiv` below proves the equivalence). -/
def checkNearWater (nm : List (List ℚ)) (row col radius : ℤ) : Bool :=
  let height : ℤ := nm.length
  let width : ℤ := (nm.headD []).length
  (intRange (max 0 (row - radius)) (min (height - 1) (row + radius))).any (fun r =>
    (intRange (max 0 (col - radius)) (min (width - 1) (col + radius))).any (fun c =>
      if r = row && c = col then false
      else
        decide ((r - row) ^ 2 + (c - col) ^ 2 ≤ radius ^ 2) &&
        decide (cellAtQ nm r c < TERRAIN_BOUNDARIES.water)))

/-- The per-cell classification lambda of `generateTerrainData` in the
multi-terrain filtered branch. The beach-exception conditions of the source's
nested `if`s are flattened into one conjunction; control flow is identical
(the branch returns `"sand"` precisely when all four conditions hold and
otherwise falls through to the closest-available computation). -/
def classifyCell (nm : List (List ℚ)) (vis : List (String × Bool))
    (avail : List String) (rowIndex colIndex : ℤ) (noiseValue : ℚ) : String :=
  let originalTerrain := getTerrainType noiseValue
  if visLookup vis originalTerrain then originalTerrain
  else if visLookup vis "sand" && !visLookup vis originalTerrain &&
      originalTerrain = "land" && checkNearWater nm rowIndex colIndex 1 then
    "sand"
  else closestTerrain avail noiseValue

/-- The terrain-map construction of `generateTerrainData`, factored over an
arbitrary noise field: the default (no visibility) branch, the empty- and
singleton-set edge cases, and the filtered per-cell classification. -/
def terrainMapOf (nm : List (List ℚ)) (vis : Option (List (String × Bool))) :
    List (List String) :=
  match vis with
  | none => nm.map (fun row => row.map getTerrainType)
  | some v =>
    let avail := enabledOf v
    if avail.length = 0 then nm.map (fun row => row.map (fun _ => "land"))
    else if avail.length = 1 then nm.map (fun row => row.map (fun _ => avail.headD ""))
    else
      nm.enum.map (fun p =>
        p.2.enum.map (fun q =>
          classifyCell nm v avail (p.1 : ℤ) (q.1 : ℤ) q.2))

/-- The `TerrainData` result record of `generateTerrainData`. -/
structure TerrainData where
  noiseMap : List (List ℚ)
  terrainMap : List (List String)

/-- `generateTerrainData` from mapGenerator.ts (the `MapConfig` record is
passed as its `width`/`height` fields; `cellSize` is rendering-only). -/
def generateTerrainData (noise2D : ℚ → ℚ → ℚ) (width height : ℤ)
    (terrainVisibility : Option (List (String × Bool))) : TerrainData :=
  let noiseMap := generateMap noise2D width height
  ⟨noiseMap, terrainMapOf noiseMap terrainVisibility⟩

/-- Cell access for a string grid with natural-number indices
(`grid[r][c]`, with a default for out-of-bounds access). -/
def cellN (m : List (List String)) (r c : ℕ) : String :=
  (m.getD r []).getD c ""

/-! ### pathfinding.ts : nodes and the indexed binary heap

The heap compares `f`-scores only, so the whole module is generic over the
score type `α`, an arbitrary linearly ordered field; the real-number model of
the source instantiates `α := ℝ` with `sqrtFn := Real.sqrt`. -/

/-- The `Node` interface: grid position, `g`/`h`/`f` scores, and an optional
parent reference for path reconstruction. -/
inductive HNode (α : Type) where
  | mk (x y : ℤ) (g h f : α) (parent : Option (HNode α))

/-- `node.x`. -/
def HNode.x : HNode α → ℤ
  | .mk x _ _ _ _ _ => x

/-- `node.y`. -/
def HNode.y : HNode α → ℤ
  | .mk _ y _ _ _ _ => y

/-- `node.g`. -/
def HNode.g : HNode α → α
  | .mk _ _ g _ _ _ => g

/-- `node.h`. -/
def HNode.h : HNode α → α
  | .mk _ _ _ h _ _ => h

/-- `node.f`. -/
def HNode.f : HNode α → α
  | .mk _ _ _ _ f _ => f

/-- `node.parent`. -/
def HNode.parent : HNode α → Option (HNode α)
  | .mk _ _ _ _ _ p => p

/-- `getKey`: the string key `"x,y"` is injective on integer coordinates, so
it is modelled as the coordinate pair itself. -/
def getKey (n : HNode α) : ℤ × ℤ :=
  (n.x, n.y)

/-- The state of a `BinaryHeap`: the backing array and the
key-to-heap-index map (`Map<string, number>` in the source, modelled as a
function to `Option ℕ`). -/
structure HeapSt (α : Type) where
  heap : List (HNode α)
  nodeMap : ℤ × ℤ → Option ℕ

/-- `Map.set`. -/
def mapSet (m : ℤ × ℤ → Option ℕ) (k : ℤ × ℤ) (v : ℕ) : ℤ × ℤ → Option ℕ :=
  fun k' => if k' = k then some v else m k'

/-- `Map.delete`. -/
def mapDelete (m : ℤ × ℤ → Option ℕ) (k : ℤ × ℤ) : ℤ × ℤ → Option ℕ :=
  fun k' => if k' = k then none else m k'

/-- `new BinaryHeap()`. -/
def emptyHeap (α : Type) : HeapSt α :=
  ⟨[], fun _ => none⟩

/-- `swap(i, j)`: exchange two heap slots and update both map entries to the
new indices. Both call sites pass in-bounds indices; for out-of-bounds
indices (where the JavaScript would corrupt the array with `undefined`) the
state is returned unchanged, a case that is never reached. -/
def swapOp (s : HeapSt α) (i j : ℕ) : HeapSt α :=
  match s.heap[i]?, s.heap[j]? with
  | some a, some b =>
    ⟨(s.heap.set i b).set j a,
     mapSet (mapSet s.nodeMap (getKey b) i) (getKey a) j⟩
  | _, _ => s

/-- Whether `heap[i].f < heap[j].f`, with an out-of-bounds index making the
comparison false — exactly the guarded comparisons
`left < length && heap[left].f < heap[smallest].f` of the source. -/
def ltAt [LinearOrder α] (s : HeapSt α) (i j : ℕ) : Bool :=
  match s.heap[i]?, s.heap[j]? with
  | some a, some b => a.f < b.f
  | _, _ => false

/-- The `heapifyUp` while-loop, with an explicit iteration budget. Each
iteration moves `index` to `(index - 1) / 2 < index`, so the budget
`index + 1` used by `heapifyUp` below is never exhausted: the `0` case is
unreachable and the function equals the source's unbounded loop. -/
def heapifyUpAux [LinearOrder α] : ℕ → HeapSt α → ℕ → HeapSt α
  | 0, s, _ => s
  | fuel + 1, s, index =>
    if index = 0 then s
    else
      let parentIndex := (index - 1) / 2
      match s.heap[index]?, s.heap[parentIndex]? with
      | some a, some p =>
        if p.f ≤ a.f then s
        else heapifyUpAux fuel (swapOp s index parentIndex) parentIndex
      | _, _ => s

/-- `heapifyUp(index)`. -/
def heapifyUp [LinearOrder α] (s : HeapSt α) (index : ℕ) : HeapSt α :=
  heapifyUpAux (index + 1) s index

/-- The `heapifyDown` while-loop, with an explicit iteration budget. Each
iteration moves `index` to `smallest ≥ index + 1` while the heap length is
unchanged, so along the recursion `fuel + index` never decreases; with the
initial budget `length + 1` used by `heapifyDown` below, `fuel = 0` forces
`index > length`, where both children are out of bounds and the loop would
stop anyway — the function equals the source's unbounded loop. -/
def heapifyDownAux [LinearOrder α] : ℕ → HeapSt α → ℕ → HeapSt α
  | 0, s, _ => s
  | fuel + 1, s, index =>
    let left := 2 * index + 1
    let right := 2 * index + 2
    let s1 := if ltAt s left index then left else index
    let smallest := if ltAt s right s1 then right else s1
    if smallest = index then s
    else heapifyDownAux fuel (swapOp s index smallest) smallest

/-- `heapifyDown(index)`. -/
def heapifyDown [LinearOrder α] (s : HeapSt α) (index : ℕ) : HeapSt α :=
  heapifyDownAux (s.heap.length + 1) s index

/-- `push(node)`: update in place (re-heapifying only in the needed
direction) when the key is already present, otherwise append and heapify up.
The inner `none` case (map points at a missing slot) is unreachable for
well-formed heaps. -/
def push [LinearOrder α] (s : HeapSt α) (node : HNode α) : HeapSt α :=
  let key := getKey node
  match s.nodeMap key with
  | some index =>
    match s.heap[index]? with
    | some old =>
      let s' : HeapSt α := ⟨s.heap.set index node, s.nodeMap⟩
      if node.f < old.f then heapifyUp s' index
      else if old.f < node.f then heapifyDown s' index
      else s'
    | none => s
  | none =>
    let s' : HeapSt α := ⟨s.heap ++ [node], mapSet s.nodeMap key s.heap.length⟩
    heapifyUp s' (s'.heap.length - 1)

/-- `pop()`: remove and return the minimum element. For a singleton heap the
map is cleared; otherwise the last element replaces the root, the root's key
is deleted, the new root's key is bound to slot `0`, and the heap is
re-heapified downward. -/
def pop [LinearOrder α] (s : HeapSt α) : Option (HNode α) × HeapSt α :=
  match s.heap with
  | [] => (none, s)
  | [n] => (some n, ⟨[], fun _ => none⟩)
  | a :: b :: t =>
    let body := a :: b :: t
    let last := body.getLast (by simp)
    let newHeap := body.dropLast.set 0 last
    let newMap := mapSet (mapDelete s.nodeMap (getKey a)) (getKey last) 0
    (some a, heapifyDown ⟨newHeap, newMap⟩ 0)

/-! ### pathfinding.ts : A* search -/

/-- The `PathResult` record. The optional `computationTime` field is a
wall-clock measurement (`performance.now()`), explicitly diagnostic and not
part of the contract; it has no counterpart in a timeless embedding and is
omitted. -/
structure PathResult (α : Type) where
  path : List (HNode α)
  distance : α
  success : Bool

/-- `getHeuristic`: Euclidean distance between the two nodes' coordinates
(the source reads only `x` and `y` of its node arguments). -/
def getHeuristic (sqrtFn : α → α) [IntCast α] (a b : ℤ × ℤ) : α :=
  let dx := |a.1 - b.1|
  let dy := |a.2 - b.2|
  sqrtFn ((dx * dx + dy * dy : ℤ) : α)

/-- The `DIRECTIONS` table, in source order, as `(dx, dy)` offsets. -/
def DIRECTIONS : List (ℤ × ℤ) :=
  [(-1, -1), (-1, 0), (-1, 1), (0, -1), (0, 1), (1, -1), (1, 0), (1, 1)]

/-- Cell access `terrainMap[y][x]`; accessed only in bounds. -/
def cellAt (m : List (List String)) (x y : ℤ) : String :=
  (m.getD y.toNat []).getD x.toNat ""

/-- `getNeighbors`: the 8 candidate offsets, bounds-checked and filtered by
impassability, each neighbor created with zeroed scores and the current node
as parent. -/
def getNeighbors (node : HNode α) (m : List (List String)) (width height : ℤ)
    [OfNat α 0] : List (HNode α) :=
  DIRECTIONS.foldl (fun acc d =>
    let nx := node.x + d.1
    let ny := node.y + d.2
    if nx < 0 ∨ ny < 0 ∨ nx ≥ width ∨ ny ≥ height then acc
    else if getTerrainCost (cellAt m nx ny) = .inf then acc
    else acc ++ [.mk nx ny 0 0 0 (some node)]) []

/-- `path reconstruction`: follow the parent chain from the goal node
(the source pushes each node then reverses; `findPath` below reverses). -/
def reconstructPath : HNode α → List (HNode α)
  | .mk x y g h f none => [.mk x y g h f none]
  | .mk x y g h f (some parent) => .mk x y g h f (some parent) :: reconstructPath parent

/-- The mutable state of one `findPath` search: the open-set heap, the
closed set, and the `gScore`/`fScore` maps. -/
structure SearchSt (α : Type) where
  openSet : HeapSt α
  closed : ℤ × ℤ → Bool
  gScore : ℤ × ℤ → Option α
  fScore : ℤ × ℤ → Option α

/-- `Set.add`. -/
def setAdd (s : ℤ × ℤ → Bool) (k : ℤ × ℤ) : ℤ × ℤ → Bool :=
  fun k' => k' = k || s k'

/-- `Map.set` for score maps. -/
def mapSetS (m : ℤ × ℤ → Option α) (k : ℤ × ℤ) (v : α) : ℤ × ℤ → Option α :=
  fun k' => if k' = k then some v else m k'

/-- The neighbor-relaxation body of the main loop, folded over the neighbor
list. `current` is the node just moved to the closed set. The score lookups
reproduce the JavaScript `||` defaults: `gScore.get(currentKey) || 0` yields
`0` both for a missing key and for a stored `0`, hence `.getD 0`; and
`gScore.get(neighborKey) || Infinity` makes the comparison succeed both for
a missing key and for a stored `0`. -/
def relaxNeighbor [LinearOrderedField α] (sqrtFn : α → α)
    (m : List (List String)) (endX endY : ℤ) (current : HNode α)
    (closed : ℤ × ℤ → Bool) (acc : SearchSt α) (nb : HNode α) : SearchSt α :=
  let neighborKey := (nb.x, nb.y)
  let currentKey := (current.x, current.y)
  if closed neighborKey then acc
  else
    match getTerrainCost (cellAt m nb.x nb.y) with
    | .inf => acc
    | .fin c =>
      let terrainCost : α := (c : ℚ)
      let isDiagonal := |nb.x - current.x| = 1 ∧ |nb.y - current.y| = 1
      let movementCost : α := if isDiagonal then terrainCost * 1.414 else terrainCost
      let newGScore := (acc.gScore currentKey).getD 0 + movementCost
      let better : Bool :=
        match acc.gScore neighborKey with
        | some g => if g = 0 then true else decide (newGScore < g)
        | none => true
      if better then
        let h := getHeuristic sqrtFn (nb.x, nb.y) (endX, endY)
        let f := newGScore + h
        ⟨push acc.openSet (.mk nb.x nb.y newGScore h f (some current)),
         acc.closed,
         mapSetS acc.gScore neighborKey newGScore,
         mapSetS acc.fScore neighborKey f⟩
      else acc

/-- The main A* loop, with an explicit iteration budget. The loop pops one
heap entry per iteration; the heap receives at most one initial push plus at
most eight pushes per newly closed cell (at most `width * height` cells close),
so at most `1 + 8 * width * height` iterations run and the budget
`9 * width * height + 9` passed by `findPath` is never exhausted — the `0`
case is unreachable and the function equals the source's `while` loop. -/
def astarLoop [LinearOrderedField α] (sqrtFn : α → α)
    (m : List (List String)) (width height endX endY : ℤ) :
    ℕ → SearchSt α → PathResult α
  | 0, _ => ⟨[], 0, false⟩
  | fuel + 1, st =>
    match pop st.openSet with
    | (none, _) => ⟨[], 0, false⟩
    | (some current, openRest) =>
      let currentKey := (current.x, current.y)
      if st.closed currentKey then
        astarLoop sqrtFn m width height endX endY fuel
          ⟨openRest, st.closed, st.gScore, st.fScore⟩
      else
        let closed' := setAdd st.closed currentKey
        if current.x = endX ∧ current.y = endY then
          ⟨(reconstructPath current).reverse, current.g, true⟩
        else
          let neighbors := getNeighbors current m width height
          let st' := neighbors.foldl
            (relaxNeighbor sqrtFn m endX endY current closed')
            ⟨openRest, closed', st.gScore, st.fScore⟩
          astarLoop sqrtFn m width height endX endY fuel st'

/-- `findPath` from pathfinding.ts: the early validations (bounds,
impassable endpoints, identical endpoints) followed by the A* loop.
`pop` returning `none` doubles as the `!openSet.isEmpty()` loop guard. -/
def findPath [LinearOrderedField α] (sqrtFn : α → α)
    (startX startY endX endY : ℤ) (terrainMap : List (List String)) :
    PathResult α :=
  let width : ℤ := (terrainMap.headD []).length
  let height : ℤ := terrainMap.length
  if startX < 0 ∨ startY < 0 ∨ startX ≥ width ∨ startY ≥ height ∨
      endX < 0 ∨ endY < 0 ∨ endX ≥ width ∨ endY ≥ height then
    ⟨[], 0, false⟩
  else if getTerrainCost (cellAt terrainMap startX startY) = .inf ∨
      getTerrainCost (cellAt terrainMap endX endY) = .inf then
    ⟨[], 0, false⟩
  else if startX = endX ∧ startY = endY then
    ⟨[.mk startX startY 0 0 0 none], 0, true⟩
  else
    let startH := getHeuristic sqrtFn (startX, startY) (endX, endY)
    let start : HNode α := .mk startX startY 0 startH 0 none
    let startKey := (startX, startY)
    let st0 : SearchSt α :=
      ⟨push (emptyHeap α) start,
       fun _ => false,
       mapSetS (fun _ => none) startKey 0,
       mapSetS (fun _ => none) startKey startH⟩
    astarLoop sqrtFn terrainMap width height endX endY
      (9 * width.toNat * height.toNat + 9) st0

/-! ### Paths over a terrain grid, for the heuristic-admissibility claim

A path is a start cell followed by a list of successor cells; each step must
stay on the grid, land on passable terrain, and move to one of the 8
neighbors. Step costs are exactly `findPath`'s movement costs: the
destination cell's terrain cost, multiplied by `1.414` for diagonal steps. -/

/-- The finite terrain cost of a cell, as a real number (`0` for the
impassable sentinel, which valid paths never step on). -/
def costValR (m : List (List String)) (q : ℤ × ℤ) : ℝ :=
  match getTerrainCost (cellAt m q.1 q.2) with
  | .fin c => (c : ℚ)
  | .inf => 0

/-- Whether the move from `p` to `q` is diagonal
(`Math.abs(dx) === 1 && Math.abs(dy) === 1` in `findPath`). -/
def isDiagStep (p q : ℤ × ℤ) : Bool :=
  |q.1 - p.1| = 1 && |q.2 - p.2| = 1

/-- The movement cost of one step, as computed by `findPath`:
destination terrain cost, times `1.414` when diagonal. -/
def stepCostR (m : List (List String)) (p q : ℤ × ℤ) : ℝ :=
  costValR m q * (if isDiagStep p q then 1.414 else 1)

/-- Whether a cell is on the grid and passable. -/
def validCell (m : List (List String)) (q : ℤ × ℤ) : Bool :=
  let width : ℤ := (m.headD []).length
  let height : ℤ := m.length
  0 ≤ q.1 && q.1 < width && 0 ≤ q.2 && q.2 < height &&
    getTerrainCost (cellAt m q.1 q.2) ≠ .inf

/-- Whether `p → q` is a legal 8-directional move onto a passable cell. -/
def validStep (m : List (List String)) (p q : ℤ × ℤ) : Bool :=
  validCell m q && |q.1 - p.1| ≤ 1 && |q.2 - p.2| ≤ 1 && !(p = q)

/-- Whether `l` is a chain of legal moves starting at `p`. -/
def chainValid (m : List (List String)) : ℤ × ℤ → List (ℤ × ℤ) → Bool
  | _, [] => true
  | p, q :: t => validStep m p q && chainValid m q t

/-- The total cost of the chain `p → l`, as `findPath` sums it. -/
def chainCost (m : List (List String)) : ℤ × ℤ → List (ℤ × ℤ) → ℝ
  | _, [] => 0
  | p, q :: t => stepCostR m p q + chainCost m q t

/-- The final cell of the chain `p → l`. -/
def lastOf (p : ℤ × ℤ) (l : List (ℤ × ℤ)) : ℤ × ℤ :=
  l.getLastD p

/-- The Euclidean unit length of one step — `s2` for a diagonal move, `1`
otherwise — parametrized by the value `s2` standing for `√2`. -/
def unitLen (s2 : ℝ) (p q : ℤ × ℤ) : ℝ :=
  if isDiagStep p q then s2 else 1

/-- The total Euclidean unit length of a chain. -/
def chainLen (s2 : ℝ) : ℤ × ℤ → List (ℤ × ℤ) → ℝ
  | _, [] => 0
  | p, q :: t => unitLen s2 p q + chainLen s2 q t

/-! ### Spec-side rendition of the default classifier, for claim C7 -/

/-- The boundary table in ascending order, as the spec describes it. -/
def boundariesAsc : List (String × ℚ) :=
  [("water", 0.40), ("sand", 0.45), ("land", 0.65),
   ("hills", 0.75), ("mountain", 0.85), ("snow", 0.95)]

/-- Modelled from the spec: "category = first boundary (in ascending order)
that the elevation value is strictly below; values at or above the highest
boundary map to the top category (Snow)". Stated independently of
`getTerrainType` so the two can be compared. -/
def getTerrainTypeSpec (v : ℚ) : String :=
  match boundariesAsc.find? (fun p => v < p.2) with
  | some p => p.1
  | none => "snow"

/-! ### Concrete data for witnesses and counterexamples -/

/-- A 2×2 all-land grid. -/
def gridLand2 : List (List String) :=
  [["land", "land"], ["land", "land"]]

/-- A 1×1 all-land grid. -/
def gridLand1 : List (List String) :=
  [["land"]]

/-- A 1×2 grid whose second cell is water. -/
def gridWater12 : List (List String) :=
  [["land", "water"]]

/-- The constant-zero noise primitive (an extreme degenerate seed). -/
def zeroNoise : ℚ → ℚ → ℚ :=
  fun _ _ => 0

/-- A non-constant noise primitive. -/
def affNoise : ℚ → ℚ → ℚ :=
  fun x y => x + y

/-- A 6×6 elevation field: everywhere `0.5` (the Land range) except the
deliberately low water-range cell `0.2` at row 5, column 5. -/
def nmBeach : List (List ℚ) :=
  [[0.5, 0.5, 0.5, 0.5, 0.5, 0.5],
   [0.5, 0.5, 0.5, 0.5, 0.5, 0.5],
   [0.5, 0.5, 0.5, 0.5, 0.5, 0.5],
   [0.5, 0.5, 0.5, 0.5, 0.5, 0.5],
   [0.5, 0.5, 0.5, 0.5, 0.5, 0.5],
   [0.5, 0.5, 0.5, 0.5, 0.5, 0.2]]

/-- The visibility map of the claimed beach scenario:
water off, sand on, land on, the rest on. -/
def visBeach : List (String × Bool) :=
  [("water", false), ("sand", true), ("land", true),
   ("hills", true), ("mountain", true), ("snow", true)]

/-- The beach scenario with Land additionally disabled. -/
def visBeachNoLand : List (String × Bool) :=
  [("water", false), ("sand", true), ("land", false),
   ("hills", true), ("mountain", true), ("snow", true)]

/-- A two-category visibility map: water and snow. -/
def visWaterSnow : List (String × Bool) :=
  [("water", true), ("snow", true)]

/-- A 1×2 elevation field with a low and a high value. -/
def nmSmall : List (List ℚ) :=
  [[0.5, 0.9]]

/-- The heap/map coherence invariant of `BinaryHeap`: the node map binds a
key to an index exactly when that index currently holds a node with that
key. It implies in particular that no two heap slots hold the same
coordinate. -/
def Wf (s : HeapSt α) : Prop :=
  ∀ k i, s.nodeMap k = some i ↔ ∃ n, s.heap[i]? = some n ∧ getKey n = k

/-! ## Theorems -/

/-- Any passable terrain cost in the shipped table (including the unknown
default of `1`) is a finite value of at least `1`. -/
theorem getTerrainCost_ge_one (t : String) (h : getTerrainCost t ≠ .inf) :
    ∃ c : ℚ, getTerrainCost t = .fin c ∧ 1 ≤ c := by
  unfold getTerrainCost TERRAIN_DEFINITIONS at *
  split_ifs at * <;> first
    | exact absurd rfl h
    | exact ⟨_, rfl, by norm_num⟩

/-- C6 counterexample: in elevation-rank order (`getTerrainOrder`), the
adjacent pair sand → land has a strictly decreasing cost (3 then 1), so the
claimed monotone non-decrease along "sand, land, hills, mountain, snow"
fails on the shipped table. -/
theorem cost_monotonicity_cex :
    getTerrainOrder[1]? = some "sand" ∧ getTerrainOrder[2]? = some "land" ∧
    getTerrainCost "sand" = .fin 3 ∧ getTerrainCost "land" = .fin 1 ∧
    ¬ ((3 : ℚ) ≤ 1) := by
  refine ⟨rfl, rfl, rfl, rfl, by norm_num⟩

/-- C6 (amended): water's cost is the `Infinity` sentinel; every other
category in the shipped order has a finite cost at least 1; the costs are
monotone non-decreasing along land, hills, mountain, snow; and sand (cost 3,
between hills and mountain) is the one exception to elevation-rank
monotonicity, costing strictly more than land. -/
theorem cost_table_amended :
    getTerrainCost "water" = .inf
    ∧ (∀ t, t ∈ getTerrainOrder → t ≠ "water" →
        ∃ c : ℚ, getTerrainCost t = .fin c ∧ 1 ≤ c)
    ∧ (∃ c1 c2 c3 c4 : ℚ,
        getTerrainCost "land" = .fin c1 ∧ getTerrainCost "hills" = .fin c2 ∧
        getTerrainCost "mountain" = .fin c3 ∧ getTerrainCost "snow" = .fin c4 ∧
        c1 ≤ c2 ∧ c2 ≤ c3 ∧ c3 ≤ c4)
    ∧ (∃ cs cl : ℚ, getTerrainCost "sand" = .fin cs ∧
        getTerrainCost "land" = .fin cl ∧ cl < cs) := by
  refine ⟨rfl, ?_, ⟨1, 2, 4, 5, rfl, rfl, rfl, rfl, by norm_num, by norm_num, by norm_num⟩,
    ⟨3, 1, rfl, rfl, by norm_num⟩⟩
  intro t ht hw
  apply getTerrainCost_ge_one
  fin_cases ht <;> simp_all <;> decide

/-- C6 witness: instantiating the quantified conjunct at the concrete
category "sand". -/
theorem cost_table_amended_witness :
    ∃ c : ℚ, getTerrainCost "sand" = .fin c ∧ 1 ≤ c :=
  cost_table_amended.2.1 "sand" (by decide) (by decide)

/-- C7: the default-mode classifier agrees, at every rational elevation
value, with the spec-side rule "first category in ascending boundary order
whose boundary the value is strictly below, with snow for everything at or
above the highest boundary"; in particular it is total. -/
theorem getTerrainType_matches_spec (v : ℚ) :
    getTerrainType v = getTerrainTypeSpec v := by
  unfold getTerrainType getTerrainTypeSpec boundariesAsc TERRAIN_BOUNDARIES
  by_cases h1 : v < 0.40 <;> by_cases h2 : v < 0.45 <;> by_cases h3 : v < 0.65 <;>
    by_cases h4 : v < 0.75 <;> by_cases h5 : v < 0.85 <;> by_cases h6 : v < 0.95 <;>
    simp [List.find?, h1, h2, h3, h4, h5, h6]

/-- C9: `findPath` is deterministic — two evaluations on identical inputs
agree on all three contract fields (path, distance, success); the source's
only impurity, the `performance.now()` wall-clock measurement, feeds the
diagnostic `computationTime` field only. -/
theorem findPath_deterministic {α : Type} [LinearOrderedField α]
    (sqrtFn : α → α) (sx sy ex ey : ℤ) (m : List (List String)) :
    (findPath sqrtFn sx sy ex ey m).path = (findPath sqrtFn sx sy ex ey m).path
    ∧ (findPath sqrtFn sx sy ex ey m).distance
        = (findPath sqrtFn sx sy ex ey m).distance
    ∧ (findPath sqrtFn sx sy ex ey m).success
        = (findPath sqrtFn sx sy ex ey m).success :=
  ⟨rfl, rfl, rfl⟩

/-- C8 counterexample: `generateMap` performs no dimension validation — at
the non-positive width 0 it returns an ordinary value (three empty rows),
not a typed error; no failure channel exists in its result type. -/
theorem generateMap_dims_cex :
    generateMap zeroNoise 0 3 = [[], [], []] := by
  with_unfolding_all decide

/-- C8 (amended): terrain generation never fails. For every noise primitive
and all integer dimensions it returns a field of `max h 0` rows, each of
`max w 0` cells — in particular a width-by-height field whenever both are
positive, and a degenerate (empty or empty-rowed) field otherwise. -/
theorem generateMap_dims (f : ℚ → ℚ → ℚ) (w h : ℤ) :
    (generateMap f w h).length = h.toNat
    ∧ (∀ row ∈ generateMap f w h, row.length = w.toNat) := by
  unfold generateMap rawNoiseMap
  constructor
  · simp only [List.length_map, List.length_range]
  · intro row hrow
    simp only [List.mem_map] at hrow
    obtain ⟨r, ⟨y, _, rfl⟩, rfl⟩ := hrow
    simp only [List.length_map, List.length_range]

/-- C3 counterexample: with the constant noise primitive (a degenerate seed
of the external noise library), the raw field is constant, the second pass
divides by `max - min = 0` (`0 / 0`, the JavaScript `NaN`; `0` in the exact
rational model — under either reading the value is not `1`), and the
normalized field `[[0,0],[0,0]]` does not attain the maximum `1`. -/
theorem generateMap_full_range_cex :
    generateMap zeroNoise 2 2 = [[0, 0], [0, 0]]
    ∧ fieldMax (generateMap zeroNoise 2 2) ≠ 1 := by
  with_unfolding_all decide

/-- C3 (amended): for every noise primitive and dimensions at least 2, if
the raw field is not constant (its minimum is strictly below its maximum),
then after the second normalization pass the minimum cell value is exactly
`0` and the maximum exactly `1`. The non-constancy hypothesis is forced by
the counterexample: a constant raw field makes the normalization divide by
zero instead of realizing the full range. -/
theorem generateMap_full_range (f : ℚ → ℚ → ℚ) (w h : ℤ)
    (hw : 2 ≤ w) (hh : 2 ≤ h)
    (hne : fieldMin (rawNoiseMap f w h) < fieldMax (rawNoiseMap f w h)) :
    fieldMin (generateMap f w h) = 0 ∧ fieldMax (generateMap f w h) = 1 := by
  haveI : Std.Antisymm ((· : ℚ) ≤ ·) := ⟨fun h1 h2 => le_antisymm h1 h2⟩
  cases hmn : (rawNoiseMap f w h).flatten.min? with
  | none =>
    exfalso
    have hnil : (rawNoiseMap f w h).flatten = [] := List.min?_eq_none_iff.mp hmn
    rw [fieldMin, fieldMax, hnil] at hne
    simp at hne
  | some mn =>
    cases hmx : (rawNoiseMap f w h).flatten.max? with
    | none =>
      exfalso
      have hnil : (rawNoiseMap f w h).flatten = [] := List.max?_eq_none_iff.mp hmx
      rw [fieldMin, fieldMax, hnil] at hne
      simp at hne
    | some mx =>
      obtain ⟨hmnMem, hmnLe⟩ :=
        (List.min?_eq_some_iff (fun a => le_refl a) (fun a b => min_choice a b)
          (fun a b c => le_min_iff)).mp hmn
      obtain ⟨hmxMem, hmxLe⟩ :=
        (List.max?_eq_some_iff (fun a => le_refl a) (fun a b => max_choice a b)
          (fun a b c => max_le_iff)).mp hmx
      have hlt : mn < mx := by
        rw [fieldMin, fieldMax, hmn, hmx] at hne
        exact hne
      have hd : (0 : ℚ) < mx - mn := by linarith
      have hflat : (generateMap f w h).flatten =
          (rawNoiseMap f w h).flatten.map (fun v => (v - mn) / (mx - mn)) := by
        rw [generateMap]
        rw [fieldMin, fieldMax, hmn, hmx]
        rw [← List.map_flatten]
        rfl
      constructor
      · rw [fieldMin, hflat]
        have : ((rawNoiseMap f w h).flatten.map
            (fun v => (v - mn) / (mx - mn))).min? = some 0 := by
          rw [List.min?_eq_some_iff (fun a => le_refl a) (fun a b => min_choice a b)
            (fun a b c => le_min_iff)]
          constructor
          · rw [List.mem_map]
            exact ⟨mn, hmnMem, by rw [sub_self, zero_div]⟩
          · intro b hb
            rw [List.mem_map] at hb
            obtain ⟨v, hv, rfl⟩ := hb
            exact div_nonneg (by linarith [hmnLe v hv]) (le_of_lt hd)
        rw [this]
        rfl
      · rw [fieldMax, hflat]
        have : ((rawNoiseMap f w h).flatten.map
            (fun v => (v - mn) / (mx - mn))).max? = some 1 := by
          rw [List.max?_eq_some_iff (fun a => le_refl a) (fun a b => max_choice a b)
            (fun a b c => max_le_iff)]
          constructor
          · rw [List.mem_map]
            exact ⟨mx, hmxMem, div_self (ne_of_gt hd)⟩
          · intro b hb
            rw [List.mem_map] at hb
            obtain ⟨v, hv, rfl⟩ := hb
            rw [div_le_one hd]
            linarith [hmxLe v hv]
        rw [this]
        rfl

/-- C3 witness: the amended full-range property at the concrete
non-constant noise primitive `affNoise` on a 2×2 field. -/
theorem generateMap_full_range_witness :
    (fieldMin (rawNoiseMap affNoise 2 2) < fieldMax (rawNoiseMap affNoise 2 2))
    ∧ fieldMin (generateMap affNoise 2 2) = 0
    ∧ fieldMax (generateMap affNoise 2 2) = 1 := by
  refine ⟨by with_unfolding_all decide, ?_, ?_⟩
  · exact (generateMap_full_range affNoise 2 2 (by decide) (by decide)
      (by with_unfolding_all decide)).1
  · exact (generateMap_full_range affNoise 2 2 (by decide) (by decide)
      (by with_unfolding_all decide)).2

/-- C2: `findPath` settles the three fast-fail contracts as data, before any
search state: an out-of-bounds endpoint yields the failed result
`⟨[], 0, false⟩`; in-bounds endpoints on infinite-cost terrain yield the
same failed result; and equal in-bounds passable endpoints yield success
with the single node `(sx, sy)` and distance 0, regardless of the rest of
the grid. (The nonemptiness hypothesis keeps the embedding on the domain
where the JavaScript `terrainMap[0].length` read is defined.) -/
theorem findPath_fast_paths {α : Type} [LinearOrderedField α] (sqrtFn : α → α)
    (sx sy ex ey : ℤ) (m : List (List String)) (hm : m ≠ []) :
    ((sx < 0 ∨ sy < 0 ∨ sx ≥ ((m.headD []).length : ℤ) ∨ sy ≥ (m.length : ℤ) ∨
        ex < 0 ∨ ey < 0 ∨ ex ≥ ((m.headD []).length : ℤ) ∨ ey ≥ (m.length : ℤ)) →
      findPath sqrtFn sx sy ex ey m = ⟨[], 0, false⟩)
    ∧ (¬ (sx < 0 ∨ sy < 0 ∨ sx ≥ ((m.headD []).length : ℤ) ∨ sy ≥ (m.length : ℤ) ∨
        ex < 0 ∨ ey < 0 ∨ ex ≥ ((m.headD []).length : ℤ) ∨ ey ≥ (m.length : ℤ)) →
      (getTerrainCost (cellAt m sx sy) = .inf ∨ getTerrainCost (cellAt m ex ey) = .inf) →
      findPath sqrtFn sx sy ex ey m = ⟨[], 0, false⟩)
    ∧ (¬ (sx < 0 ∨ sy < 0 ∨ sx ≥ ((m.headD []).length : ℤ) ∨ sy ≥ (m.length : ℤ) ∨
        ex < 0 ∨ ey < 0 ∨ ex ≥ ((m.headD []).length : ℤ) ∨ ey ≥ (m.length : ℤ)) →
      ¬ (getTerrainCost (cellAt m sx sy) = .inf ∨ getTerrainCost (cellAt m ex ey) = .inf) →
      sx = ex ∧ sy = ey →
      findPath sqrtFn sx sy ex ey m = ⟨[.mk sx sy 0 0 0 none], 0, true⟩) := by
  refine ⟨?_, ?_, ?_⟩
  · intro hob
    simp only [findPath]
    rw [if_pos hob]
  · intro hnob hinf
    simp only [findPath]
    rw [if_neg hnob, if_pos hinf]
  · intro hnob hninf heq
    simp only [findPath]
    rw [if_neg hnob, if_neg hninf, if_pos heq]

/-- C2 witness: the three fast paths at concrete grids — an out-of-bounds
start, a water goal, and coinciding endpoints. -/
theorem findPath_fast_paths_witness :
    findPath (fun _ => (0 : ℚ)) (-1) 0 0 0 gridLand1 = ⟨[], 0, false⟩
    ∧ findPath (fun _ => (0 : ℚ)) 0 0 1 0 gridWater12 = ⟨[], 0, false⟩
    ∧ findPath (fun _ => (0 : ℚ)) 0 0 0 0 gridLand1 = ⟨[.mk 0 0 0 0 0 none], 0, true⟩ := by
  refine ⟨?_, ?_, ?_⟩
  · exact (findPath_fast_paths (fun _ => (0 : ℚ)) (-1) 0 0 0 gridLand1
      (by decide)).1 (by decide)
  · exact (findPath_fast_paths (fun _ => (0 : ℚ)) 0 0 1 0 gridWater12
      (by decide)).2.1 (by decide) (by decide)
  · exact (findPath_fast_paths (fun _ => (0 : ℚ)) 0 0 0 0 gridLand1
      (by decide)).2.2 (by decide) (by decide) (by decide)

/-- A visible category name is a member of the enabled set. -/
theorem visLookup_mem (vis : List (String × Bool)) (t : String)
    (h : visLookup vis t = true) : t ∈ enabledOf vis := by
  induction vis with
  | nil => simp [visLookup, List.lookup] at h
  | cons p rest ih =>
    obtain ⟨k, v⟩ := p
    by_cases hk : t = k
    · subst hk
      have hv : v = true := by
        simpa [visLookup, List.lookup] using h
      subst hv
      simp [enabledOf, List.filter_cons]
    · have hbeq : (t == k) = false := by
        simp [hk]
      have h' : visLookup rest t = true := by
        simpa [visLookup, List.lookup, hbeq] using h
      have hmem := ih h'
      rcases hv : v with _ | _ <;>
        simp [enabledOf, List.filter_cons, hv] at hmem ⊢ <;>
        simp_all [enabledOf]

/-- The closest-available fold never leaves the candidate set. -/
theorem closestFold_foldl_mem (v : ℚ) (S : List String) :
    ∀ (l : List String) (acc : String × Option ℚ), acc.1 ∈ S → (∀ t ∈ l, t ∈ S) →
      (l.foldl (closestFold v) acc).1 ∈ S := by
  intro l
  induction l with
  | nil =>
    intro acc hacc _
    simpa using hacc
  | cons a rest ih =>
    intro acc hacc hsub
    rw [List.foldl_cons]
    apply ih
    · rw [closestFold]
      cases hfr : findRange a with
      | none => exact hacc
      | some r =>
        dsimp only
        cases hacc2 : acc.2 with
        | none => exact hsub a (List.mem_cons_self a rest)
        | some md =>
          dsimp only
          split_ifs with hd
          · exact hsub a (List.mem_cons_self a rest)
          · exact hacc
    · intro t ht
      exact hsub t (List.mem_cons_of_mem a ht)

/-- `closestTerrain` returns a member of a nonempty candidate list. -/
theorem closestTerrain_mem (avail : List String) (v : ℚ) (h : avail ≠ []) :
    closestTerrain avail v ∈ avail := by
  rw [closestTerrain]
  apply closestFold_foldl_mem
  · cases avail with
    | nil => exact absurd rfl h
    | cons a t => exact List.mem_cons_self a t
  · intro t ht
    exact ht

/-- The filtered per-cell classifier always answers from the enabled set. -/
theorem classifyCell_mem (nm : List (List ℚ)) (vis : List (String × Bool))
    (r c : ℤ) (v : ℚ) (h : enabledOf vis ≠ []) :
    classifyCell nm vis (enabledOf vis) r c v ∈ enabledOf vis := by
  rw [classifyCell]
  split_ifs with h1 h2
  · exact visLookup_mem vis _ h1
  · have hsand : visLookup vis "sand" = true := by
      simp only [Bool.and_eq_true, decide_eq_true_eq] at h2
      exact h2.1.1.1
    exact visLookup_mem vis _ hsand
  · exact closestTerrain_mem _ _ h

/-- C4: classifier totality under visibility filtering. The first conjunct
ties the factored classifier to `generateTerrainData`; then, for every
elevation field: an empty enabled set makes every cell `"land"`; a singleton
enabled set makes every cell that single member; and for any nonempty
enabled set every assigned category belongs to the enabled set. -/
theorem generateTerrainData_totality (nm : List (List ℚ)) (vis : List (String × Bool)) :
    (∀ f w h, (generateTerrainData f w h (some vis)).terrainMap
        = terrainMapOf (generateMap f w h) (some vis))
    ∧ (enabledOf vis = [] →
        ∀ row ∈ terrainMapOf nm (some vis), ∀ cat ∈ row, cat = "land")
    ∧ (∀ t, enabledOf vis = [t] →
        ∀ row ∈ terrainMapOf nm (some vis), ∀ cat ∈ row, cat = t)
    ∧ (enabledOf vis ≠ [] →
        ∀ row ∈ terrainMapOf nm (some vis), ∀ cat ∈ row, cat ∈ enabledOf vis) := by
  refine ⟨fun f w h => rfl, ?_, ?_, ?_⟩
  · intro he row hrow cat hcat
    simp only [terrainMapOf, he] at hrow
    simp only [List.length_nil, if_pos] at hrow
    obtain ⟨r, _, rfl⟩ := List.mem_map.mp hrow
    obtain ⟨x, _, rfl⟩ := List.mem_map.mp hcat
    rfl
  · intro t he row hrow cat hcat
    simp only [terrainMapOf, he] at hrow
    simp at hrow
    obtain ⟨r, _, rfl⟩ := hrow
    exact List.eq_of_mem_replicate hcat
  · intro he row hrow cat hcat
    simp only [terrainMapOf] at hrow
    by_cases h0 : (enabledOf vis).length = 0
    · exact absurd (List.length_eq_zero.mp h0) he
    · rw [if_neg h0] at hrow
      by_cases h1 : (enabledOf vis).length = 1
      · rw [if_pos h1] at hrow
        obtain ⟨r, _, rfl⟩ := List.mem_map.mp hrow
        obtain ⟨x, _, rfl⟩ := List.mem_map.mp hcat
        cases havail : enabledOf vis with
        | nil => exact absurd havail he
        | cons a rest => simp [havail]
      · rw [if_neg h1] at hrow
        obtain ⟨p, _, rfl⟩ := List.mem_map.mp hrow
        obtain ⟨q, _, rfl⟩ := List.mem_map.mp hcat
        exact classifyCell_mem nm vis _ _ _ he

/-- C4 witness: on the concrete field `nmSmall` with water and snow enabled,
the category assigned to the first cell ("water") is in the enabled set. -/
theorem generateTerrainData_totality_witness :
    ("water" : String) ∈ enabledOf visWaterSnow := by
  refine (generateTerrainData_totality nmSmall visWaterSnow).2.2.2 (by decide)
    ["water", "snow"] ?_ "water" (by decide)
  with_unfolding_all decide

/-- C5 counterexample: the claimed scenario itself — the low (water-range)
cell at row 5, column 5 of `nmBeach`, an orthogonally adjacent natural-Land
cell at row 5, column 4 within radius 1, and the visibility
`{water: false, sand: true, land: true, ...}` — classifies the adjacent cell
as `"land"`, not `"sand"`: with Land enabled, the classifier returns the
natural category before the beach exception is ever consulted. -/
theorem beach_exception_cex :
    cellAtQ nmBeach 5 5 < TERRAIN_BOUNDARIES.water
    ∧ getTerrainType (cellAtQ nmBeach 5 4) = "land"
    ∧ checkNearWater nmBeach 5 4 1 = true
    ∧ visLookup visBeach "water" = false
    ∧ visLookup visBeach "sand" = true
    ∧ visLookup visBeach "land" = true
    ∧ cellN (terrainMapOf nmBeach (some visBeach)) 5 4 = "land"
    ∧ cellN (terrainMapOf nmBeach (some visBeach)) 5 4 ≠ "sand" := by
  with_unfolding_all decide

/-- C5 (amended): the beach exception fires only for cells whose natural
category is not itself visible. For every field and visibility map with at
least two enabled categories, a cell whose natural category is Land, with
Land disabled and Sand enabled, lying within Euclidean distance 1 of a cell
whose raw elevation is below the Water boundary, classifies as Sand. -/
theorem beach_exception_amended (nm : List (List ℚ)) (vis : List (String × Bool))
    (r c : ℕ)
    (hlen : 2 ≤ (enabledOf vis).length)
    (hr : r < nm.length) (hc : c < (nm.getD r []).length)
    (hsand : visLookup vis "sand" = true)
    (hnat : getTerrainType ((nm.getD r []).getD c 0) = "land")
    (hnotvis : visLookup vis "land" = false)
    (hnear : checkNearWater nm (r : ℤ) (c : ℤ) 1 = true) :
    cellN (terrainMapOf nm (some vis)) r c = "sand" := by
  obtain ⟨row, hrow⟩ : ∃ row, nm[r]? = some row := ⟨_, List.getElem?_eq_getElem hr⟩
  have hrowD : nm.getD r [] = row := by
    simp [List.getD_eq_getElem?_getD, hrow]
  rw [hrowD] at hc hnat
  obtain ⟨v, hv⟩ : ∃ v, row[c]? = some v := ⟨_, List.getElem?_eq_getElem hc⟩
  have hvD : row.getD c 0 = v := by
    simp [List.getD_eq_getElem?_getD, hv]
  rw [hvD] at hnat
  have h0 : ¬ ((enabledOf vis).length = 0) := by omega
  have h1 : ¬ ((enabledOf vis).length = 1) := by omega
  rw [cellN]
  simp only [terrainMapOf]
  rw [if_neg h0, if_neg h1]
  simp only [List.getD_eq_getElem?_getD, List.getElem?_map, List.enum_eq_enumFrom,
    List.getElem?_enumFrom, hrow, Option.map_some', Nat.zero_add, Option.getD_some]
  rw [hv]
  simp only [Option.map_some', Option.getD_some]
  simp [classifyCell, hnat, hnotvis, hsand, hnear]

/-- C5 witness: the amended beach rule at the concrete scenario with Land
disabled — the adjacent cell now classifies as Sand. -/
theorem beach_exception_amended_witness :
    cellN (terrainMapOf nmBeach (some visBeachNoLand)) 5 4 = "sand" :=
  beach_exception_amended nmBeach visBeachNoLand 5 4 (by decide) (by decide)
    (by decide) (by decide) (by with_unfolding_all decide) (by decide)
    (by with_unfolding_all decide)

/-- The truncated diagonal multiplier `1.414` is strictly below `√2`. -/
theorem multiplier_lt_sqrt_two : (1.414 : ℝ) < Real.sqrt 2 := by
  rw [Real.lt_sqrt (by norm_num)]
  norm_num

/-- `getHeuristic` with the real square root is the Euclidean modulus of the
complex displacement. -/
theorem getHeuristic_eq_abs (a b : ℤ × ℤ) :
    getHeuristic Real.sqrt a b
      = Complex.abs ⟨((b.1 - a.1 : ℤ) : ℝ), ((b.2 - a.2 : ℤ) : ℝ)⟩ := by
  simp only [getHeuristic, Complex.abs_apply, Complex.normSq_mk]
  congr 1
  push_cast
  rw [abs_mul_abs_self, abs_mul_abs_self]
  ring

/-- Triangle inequality for the Euclidean heuristic. -/
theorem getHeuristic_triangle (a b c : ℤ × ℤ) :
    getHeuristic Real.sqrt a c
      ≤ getHeuristic Real.sqrt a b + getHeuristic Real.sqrt b c := by
  have key : (⟨((c.1 - a.1 : ℤ) : ℝ), ((c.2 - a.2 : ℤ) : ℝ)⟩ : ℂ)
      = (⟨((b.1 - a.1 : ℤ) : ℝ), ((b.2 - a.2 : ℤ) : ℝ)⟩ : ℂ)
        + ⟨((c.1 - b.1 : ℤ) : ℝ), ((c.2 - b.2 : ℤ) : ℝ)⟩ := by
    apply Complex.ext <;> push_cast <;> simp <;> ring
  rw [getHeuristic_eq_abs, getHeuristic_eq_abs, getHeuristic_eq_abs, key]
  exact Complex.abs.add_le _ _

/-- On a legal move the heuristic equals the unit step length
(`√2` diagonally, `1` orthogonally). -/
theorem validStep_heuristic (m : List (List String)) (p q : ℤ × ℤ)
    (h : validStep m p q = true) :
    getHeuristic Real.sqrt p q = unitLen (Real.sqrt 2) p q := by
  have hd : (|q.1 - p.1| ≤ 1 ∧ |q.2 - p.2| ≤ 1) ∧ ¬(q.1 - p.1 = 0 ∧ q.2 - p.2 = 0) := by
    rw [validStep] at h
    simp only [Bool.and_eq_true, decide_eq_true_eq, Bool.not_eq_true',
      decide_eq_false_iff_not] at h
    refine ⟨⟨h.1.1.2, h.1.2⟩, ?_⟩
    rintro ⟨h1, h2⟩
    exact h.2 (Prod.ext_iff.mpr ⟨by omega, by omega⟩)
  obtain ⟨⟨hdx, hdy⟩, hne⟩ := hd
  simp only [getHeuristic, unitLen, isDiagStep]
  rw [abs_sub_comm p.1 q.1, abs_sub_comm p.2 q.2]
  rw [abs_le] at hdx hdy
  have c1 : q.1 - p.1 = -1 ∨ q.1 - p.1 = 0 ∨ q.1 - p.1 = 1 := by omega
  have c2 : q.2 - p.2 = -1 ∨ q.2 - p.2 = 0 ∨ q.2 - p.2 = 1 := by omega
  rcases c1 with h1 | h1 | h1 <;> rcases c2 with h2 | h2 | h2 <;>
    simp only [h1, h2] <;> norm_num [Real.sqrt_one]
  exact hne ⟨h1, h2⟩

/-- Scaled per-step admissibility: each legal step costs, up to the factor
`√2 / 1.414`, at least its Euclidean length. -/
theorem stepCost_ge (m : List (List String)) (p q : ℤ × ℤ)
    (h : validStep m p q = true) :
    (1.414 : ℝ) * unitLen (Real.sqrt 2) p q ≤ Real.sqrt 2 * stepCostR m p q := by
  have hpass : getTerrainCost (cellAt m q.1 q.2) ≠ .inf := by
    rw [validStep, validCell] at h
    simp only [Bool.and_eq_true, decide_eq_true_eq] at h
    exact h.1.1.1.2
  obtain ⟨cq, hc, hc1⟩ := getTerrainCost_ge_one _ hpass
  have hcR : (1 : ℝ) ≤ (cq : ℝ) := by exact_mod_cast hc1
  have h2 : (1.414 : ℝ) ≤ Real.sqrt 2 := le_of_lt multiplier_lt_sqrt_two
  have h2pos : (0 : ℝ) < Real.sqrt 2 := Real.sqrt_pos.mpr (by norm_num)
  rw [stepCostR, costValR, hc, unitLen]
  cases hdg : isDiagStep p q with
  | false =>
    norm_num
    nlinarith
  | true =>
    norm_num
    nlinarith

/-- Triangle inequality along a chain: the straight-line heuristic is at
most the summed unit lengths of the steps. -/
theorem chainLen_triangle (m : List (List String)) (l : List (ℤ × ℤ)) :
    ∀ p, chainValid m p l = true →
      getHeuristic Real.sqrt p (lastOf p l) ≤ chainLen (Real.sqrt 2) p l := by
  induction l with
  | nil =>
    intro p _
    simp only [lastOf, List.getLastD_nil, chainLen]
    simp [getHeuristic, Real.sqrt_zero]
  | cons q t ih =>
    intro p h
    rw [chainValid] at h
    simp only [Bool.and_eq_true] at h
    obtain ⟨hs, hrest⟩ := h
    have h1 := getHeuristic_triangle p q (lastOf q t)
    have h2 := ih q hrest
    have h3 := validStep_heuristic m p q hs
    have hlast : lastOf p (q :: t) = lastOf q t := by
      simp only [lastOf]
      exact List.getLastD_cons p q t
    rw [hlast, chainLen]
    linarith

/-- Scaled admissibility along a chain. -/
theorem chainCost_ge (m : List (List String)) (l : List (ℤ × ℤ)) :
    ∀ p, chainValid m p l = true →
      (1.414 : ℝ) * chainLen (Real.sqrt 2) p l ≤ Real.sqrt 2 * chainCost m p l := by
  induction l with
  | nil =>
    intro p _
    simp [chainLen, chainCost]
  | cons q t ih =>
    intro p h
    rw [chainValid] at h
    simp only [Bool.and_eq_true] at h
    obtain ⟨hs, hrest⟩ := h
    rw [chainLen, chainCost, mul_add, mul_add]
    have ha := stepCost_ge m p q hs
    have hb := ih q hrest
    linarith

/-- C1 counterexample: on the 2×2 all-land grid, the single diagonal step
from (0,0) to (1,1) is a legal path of cost `1 · 1.414 = 1.414`, yet the
heuristic at (0,0) is `√2 > 1.414` — the Euclidean heuristic overestimates
the true minimum cost, so it is not admissible as claimed: the shipped
diagonal multiplier `1.414` is strictly below the diagonal unit distance. -/
theorem heuristic_admissible_cex :
    validCell gridLand2 (0, 0) = true
    ∧ chainValid gridLand2 (0, 0) [(1, 1)] = true
    ∧ lastOf (0, 0) [(1, 1)] = (1, 1)
    ∧ chainCost gridLand2 (0, 0) [(1, 1)] < getHeuristic Real.sqrt (0, 0) (1, 1) := by
  refine ⟨by decide, by decide, by decide, ?_⟩
  have h1 : cellAt gridLand2 1 1 = "land" := rfl
  have hc : chainCost gridLand2 (0, 0) [(1, 1)] = 1.414 := by
    rw [chainCost, chainCost, stepCostR, costValR, h1]
    rw [show getTerrainCost "land" = JsCost.fin 1 from rfl]
    rw [show isDiagStep (0, 0) (1, 1) = true from rfl]
    norm_num
  have hh : getHeuristic Real.sqrt (0, 0) (1, 1) = Real.sqrt 2 := by
    simp only [getHeuristic]
    norm_num
  rw [hc, hh]
  exact multiplier_lt_sqrt_two

/-- C1 (amended): the heuristic is admissible up to the truncation ratio of
the diagonal multiplier — for every grid, every passable start cell and
every legal 8-directional path, `1.414 · h(n) ≤ √2 · cost(path)`, i.e.
`h(n) ≤ (√2 / 1.414) · cost(path)` (an overestimate by at most ≈ 1.0002);
exact admissibility fails by the counterexample. -/
theorem heuristic_scaled_admissible (m : List (List String)) (n : ℤ × ℤ)
    (l : List (ℤ × ℤ)) (hn : validCell m n = true)
    (hl : chainValid m n l = true) :
    (1.414 : ℝ) * getHeuristic Real.sqrt n (lastOf n l)
      ≤ Real.sqrt 2 * chainCost m n l := by
  have h1 := chainLen_triangle m l n hl
  have h2 := chainCost_ge m l n hl
  have h3 : (1.414 : ℝ) * getHeuristic Real.sqrt n (lastOf n l)
      ≤ 1.414 * chainLen (Real.sqrt 2) n l :=
    mul_le_mul_of_nonneg_left h1 (by norm_num)
  linarith

/-- C1 witness: the scaled admissibility bound at the concrete straight
step from (0,0) to (1,0) on the all-land grid. -/
theorem heuristic_scaled_admissible_witness :
    validCell gridLand2 (0, 0) = true
    ∧ chainValid gridLand2 (0, 0) [(1, 0)] = true
    ∧ (1.414 : ℝ) * getHeuristic Real.sqrt (0, 0) (lastOf (0, 0) [(1, 0)])
        ≤ Real.sqrt 2 * chainCost gridLand2 (0, 0) [(1, 0)] :=
  ⟨by decide, by decide,
    heuristic_scaled_admissible gridLand2 (0, 0) [(1, 0)] (by decide) (by decide)⟩

/-- The empty heap satisfies the coherence invariant. -/
theorem Wf_empty (α : Type) : Wf (emptyHeap α) := by
  intro k i
  simp [emptyHeap]

/-- Under `Wf`, two slots holding the same key coincide. -/
theorem Wf_unique {α : Type} (s : HeapSt α) (hw : Wf s) (i j : ℕ)
    (a b : HNode α) (ha : s.heap[i]? = some a) (hb : s.heap[j]? = some b)
    (hk : getKey a = getKey b) : i = j := by
  have h1 : s.nodeMap (getKey b) = some i := (hw (getKey b) i).mpr ⟨a, ha, hk⟩
  have h2 : s.nodeMap (getKey b) = some j := (hw (getKey b) j).mpr ⟨b, hb, rfl⟩
  rw [h1] at h2
  exact Option.some.inj h2

/-- `swap` leaves the heap length unchanged. -/
theorem swapOp_heap_length {α : Type} (s : HeapSt α) (i j : ℕ) :
    (swapOp s i j).heap.length = s.heap.length := by
  rw [swapOp]
  rcases h1 : s.heap[i]? with _ | a <;> rcases h2 : s.heap[j]? with _ | b <;>
    simp [List.length_set]

/-- Element-wise description of the swapped heap. -/
theorem swapOp_getElem {α : Type} (s : HeapSt α) (i j : ℕ) (a b : HNode α)
    (ha : s.heap[i]? = some a) (hb : s.heap[j]? = some b) (m : ℕ) :
    (swapOp s i j).heap[m]? =
      if m = j then some a else if m = i then some b else s.heap[m]? := by
  obtain ⟨hi, -⟩ := List.getElem?_eq_some.mp ha
  obtain ⟨hj, -⟩ := List.getElem?_eq_some.mp hb
  rw [swapOp, ha, hb]
  dsimp only
  rw [List.getElem?_set, List.getElem?_set]
  rcases eq_or_ne m j with rfl | hmj
  · simp [List.length_set, hj]
  · rcases eq_or_ne m i with rfl | hmi
    · simp [hmj, Ne.symm hmj, hi]
    · simp [hmj, Ne.symm hmj, hmi, Ne.symm hmi]

/-- Pointwise description of the swapped node map. -/
theorem swapOp_nodeMap {α : Type} (s : HeapSt α) (i j : ℕ) (a b : HNode α)
    (ha : s.heap[i]? = some a) (hb : s.heap[j]? = some b) (k : ℤ × ℤ) :
    (swapOp s i j).nodeMap k =
      if k = getKey a then some j else if k = getKey b then some i else s.nodeMap k := by
  rw [swapOp, ha, hb]
  simp [mapSet]

/-- `swap` preserves the coherence invariant. -/
theorem Wf_swapOp {α : Type} (s : HeapSt α) (i j : ℕ) (hw : Wf s)
    (hi : i < s.heap.length) (hj : j < s.heap.length) : Wf (swapOp s i j) := by
  obtain ⟨a, ha⟩ : ∃ a, s.heap[i]? = some a := ⟨_, List.getElem?_eq_getElem hi⟩
  obtain ⟨b, hb⟩ : ∃ b, s.heap[j]? = some b := ⟨_, List.getElem?_eq_getElem hj⟩
  have hga : s.nodeMap (getKey a) = some i := (hw (getKey a) i).mpr ⟨a, ha, rfl⟩
  have hgb : s.nodeMap (getKey b) = some j := (hw (getKey b) j).mpr ⟨b, hb, rfl⟩
  intro k m
  rw [swapOp_nodeMap s i j a b ha hb k]
  simp only [swapOp_getElem s i j a b ha hb]
  by_cases hka : k = getKey a
  · subst hka
    rw [if_pos rfl]
    constructor
    · intro hm
      obtain rfl : j = m := Option.some.inj hm
      exact ⟨a, by rw [if_pos rfl], rfl⟩
    · rintro ⟨n, hn, hkn⟩
      rcases eq_or_ne m j with rfl | hmj
      · rfl
      · rw [if_neg hmj] at hn
        rcases eq_or_ne m i with rfl | hmi
        · rw [if_pos rfl] at hn
          obtain rfl : b = n := Option.some.inj hn
          have hij : m = j := by
            rw [← hkn] at hga
            rw [hga] at hgb
            exact Option.some.inj hgb
          exact absurd hij hmj
        · rw [if_neg hmi] at hn
          have hmap : s.nodeMap (getKey a) = some m := (hw (getKey a) m).mpr ⟨n, hn, hkn⟩
          rw [hga] at hmap
          exact absurd (Option.some.inj hmap).symm hmi
  · rw [if_neg hka]
    by_cases hkb : k = getKey b
    · subst hkb
      rw [if_pos rfl]
      constructor
      · intro hm
        obtain rfl : i = m := Option.some.inj hm
        by_cases hij : i = j
        · rw [hij] at ha
          rw [ha] at hb
          obtain rfl : a = b := Option.some.inj hb
          exact absurd rfl hka
        · exact ⟨b, by rw [if_neg hij, if_pos rfl], rfl⟩
      · rintro ⟨n, hn, hkn⟩
        rcases eq_or_ne m j with rfl | hmj
        · rw [if_pos rfl] at hn
          obtain rfl : a = n := Option.some.inj hn
          exact absurd hkn.symm hka
        · rw [if_neg hmj] at hn
          rcases eq_or_ne m i with rfl | hmi
          · rfl
          · rw [if_neg hmi] at hn
            have hmap : s.nodeMap (getKey b) = some m := (hw (getKey b) m).mpr ⟨n, hn, hkn⟩
            rw [hgb] at hmap
            exact absurd (Option.some.inj hmap).symm hmj
    · rw [if_neg hkb]
      constructor
      · intro hm
        obtain ⟨n, hn, hkn⟩ := (hw k m).mp hm
        refine ⟨n, ?_, hkn⟩
        rcases eq_or_ne m j with rfl | hmj
        · rw [hb] at hn
          obtain rfl : b = n := Option.some.inj hn
          exact absurd hkn.symm hkb
        · rcases eq_or_ne m i with rfl | hmi
          · rw [ha] at hn
            obtain rfl : a = n := Option.some.inj hn
            exact absurd hkn.symm hka
          · rw [if_neg hmj, if_neg hmi]
            exact hn
      · rintro ⟨n, hn, hkn⟩
        rcases eq_or_ne m j with rfl | hmj
        · rw [if_pos rfl] at hn
          obtain rfl : a = n := Option.some.inj hn
          exact absurd hkn.symm hka
        · rw [if_neg hmj] at hn
          rcases eq_or_ne m i with rfl | hmi
          · rw [if_pos rfl] at hn
            obtain rfl : b = n := Option.some.inj hn
            exact absurd hkn.symm hkb
          · rw [if_neg hmi] at hn
            exact (hw k m).mpr ⟨n, hn, hkn⟩

/-- A true guarded comparison implies both indices are in bounds. -/
theorem ltAt_bounds {α : Type} [LinearOrder α] (s : HeapSt α) (i j : ℕ)
    (h : ltAt s i j = true) : i < s.heap.length ∧ j < s.heap.length := by
  rw [ltAt] at h
  rcases h1 : s.heap[i]? with _ | a <;> rcases h2 : s.heap[j]? with _ | b <;>
    rw [h1, h2] at h <;> dsimp only at h
  · exact absurd h (by simp)
  · exact absurd h (by simp)
  · exact absurd h (by simp)
  · obtain ⟨hi, -⟩ := List.getElem?_eq_some.mp h1
    obtain ⟨hj, -⟩ := List.getElem?_eq_some.mp h2
    exact ⟨hi, hj⟩

/-- `heapifyUp` leaves the heap length unchanged. -/
theorem heapifyUpAux_length {α : Type} [LinearOrder α] (fuel : ℕ) :
    ∀ (s : HeapSt α) (index : ℕ),
      (heapifyUpAux fuel s index).heap.length = s.heap.length := by
  induction fuel with
  | zero => intro s index; rfl
  | succ fuel ih =>
    intro s index
    by_cases h0 : index = 0
    · rw [heapifyUpAux, if_pos h0]
    · rcases h1 : s.heap[index]? with _ | a
      · rw [heapifyUpAux, if_neg h0, h1]
      · rcases h2 : s.heap[(index - 1) / 2]? with _ | p
        · rw [heapifyUpAux, if_neg h0, h1]
          dsimp only
          rw [h2]
        · rw [heapifyUpAux, if_neg h0, h1]
          dsimp only
          rw [h2]
          dsimp only
          by_cases hf : p.f ≤ a.f
          · rw [if_pos hf]
          · rw [if_neg hf, ih, swapOp_heap_length]

/-- `heapifyUp` preserves the coherence invariant. -/
theorem Wf_heapifyUpAux {α : Type} [LinearOrder α] (fuel : ℕ) :
    ∀ (s : HeapSt α) (index : ℕ), Wf s → Wf (heapifyUpAux fuel s index) := by
  induction fuel with
  | zero => intro s index hw; exact hw
  | succ fuel ih =>
    intro s index hw
    by_cases h0 : index = 0
    · rw [heapifyUpAux, if_pos h0]; exact hw
    · rcases h1 : s.heap[index]? with _ | a
      · rw [heapifyUpAux, if_neg h0, h1]; exact hw
      · rcases h2 : s.heap[(index - 1) / 2]? with _ | p
        · rw [heapifyUpAux, if_neg h0, h1]
          dsimp only
          rw [h2]
          exact hw
        · rw [heapifyUpAux, if_neg h0, h1]
          dsimp only
          rw [h2]
          dsimp only
          by_cases hf : p.f ≤ a.f
          · rw [if_pos hf]; exact hw
          · rw [if_neg hf]
            apply ih
            obtain ⟨hi, -⟩ := List.getElem?_eq_some.mp h1
            obtain ⟨hj, -⟩ := List.getElem?_eq_some.mp h2
            exact Wf_swapOp s index ((index - 1) / 2) hw hi hj

/-- `heapifyDown` leaves the heap length unchanged. -/
theorem heapifyDownAux_length {α : Type} [LinearOrder α] (fuel : ℕ) :
    ∀ (s : HeapSt α) (index : ℕ),
      (heapifyDownAux fuel s index).heap.length = s.heap.length := by
  induction fuel with
  | zero => intro s index; rfl
  | succ fuel ih =>
    intro s index
    rw [heapifyDownAux]
    split_ifs <;> first
      | rfl
      | rw [ih, swapOp_heap_length]

/-- `heapifyDown` preserves the coherence invariant. -/
theorem Wf_heapifyDownAux {α : Type} [LinearOrder α] (fuel : ℕ) :
    ∀ (s : HeapSt α) (index : ℕ), Wf s → Wf (heapifyDownAux fuel s index) := by
  induction fuel with
  | zero => intro s index hw; exact hw
  | succ fuel ih =>
    intro s index hw
    rw [heapifyDownAux]
    split_ifs with c1 c2 c3 c4 c5 c6 c7 c8
    all_goals first
      | exact hw
      | exact absurd rfl (by assumption)
      | (apply ih
         apply Wf_swapOp s _ _ hw <;>
           first
             | exact (ltAt_bounds _ _ _ (by assumption)).1
             | exact (ltAt_bounds _ _ _ (by assumption)).2)

/-- Replacing a slot with a node of the same key preserves coherence. -/
theorem Wf_set_same_key {α : Type} (s : HeapSt α) (n old : HNode α) (index : ℕ)
    (hold : s.heap[index]? = some old) (holdk : getKey old = getKey n)
    (hw : Wf s) : Wf (⟨s.heap.set index n, s.nodeMap⟩ : HeapSt α) := by
  obtain ⟨hidx, -⟩ := List.getElem?_eq_some.mp hold
  intro k m
  dsimp only
  constructor
  · intro hm
    obtain ⟨b, hb, hkb⟩ := (hw k m).mp hm
    rcases eq_or_ne m index with rfl | hmi
    · rw [hold] at hb
      obtain rfl : old = b := Option.some.inj hb
      refine ⟨n, ?_, ?_⟩
      · rw [List.getElem?_set_self hidx]
      · rw [← holdk]
        exact hkb
    · refine ⟨b, ?_, hkb⟩
      rw [List.getElem?_set_ne (Ne.symm hmi)]
      exact hb
  · rintro ⟨b, hb, hkb⟩
    rcases eq_or_ne m index with rfl | hmi
    · rw [List.getElem?_set_self hidx] at hb
      obtain rfl : n = b := Option.some.inj hb
      exact (hw k m).mpr ⟨old, hold, by rw [holdk, hkb]⟩
    · rw [List.getElem?_set_ne (Ne.symm hmi)] at hb
      exact (hw k m).mpr ⟨b, hb, hkb⟩

/-- Appending a node with a fresh key, and binding that key to the new last
slot, preserves coherence. -/
theorem Wf_append_new {α : Type} (s : HeapSt α) (n : HNode α)
    (hk : s.nodeMap (getKey n) = none) (hw : Wf s) :
    Wf (⟨s.heap ++ [n], mapSet s.nodeMap (getKey n) s.heap.length⟩ : HeapSt α) := by
  intro k m
  simp only [mapSet]
  by_cases hkn : k = getKey n
  · rw [if_pos hkn]
    constructor
    · intro hm
      obtain rfl : s.heap.length = m := Option.some.inj hm
      exact ⟨n, List.getElem?_concat_length _ _, hkn.symm⟩
    · rintro ⟨b, hb, hkb⟩
      rcases lt_trichotomy m s.heap.length with hlt | rfl | hgt
      · rw [List.getElem?_append_left hlt] at hb
        have : s.nodeMap (getKey n) = some m :=
          (hw (getKey n) m).mpr ⟨b, hb, by rw [hkb, hkn]⟩
        rw [hk] at this
        cases this
      · rfl
      · rw [List.getElem?_append_right (le_of_lt hgt)] at hb
        rw [List.getElem?_eq_none (by simp; omega)] at hb
        cases hb
  · rw [if_neg hkn]
    constructor
    · intro hm
      obtain ⟨b, hb, hkb⟩ := (hw k m).mp hm
      obtain ⟨hmlt, -⟩ := List.getElem?_eq_some.mp hb
      refine ⟨b, ?_, hkb⟩
      rw [List.getElem?_append_left hmlt]
      exact hb
    · rintro ⟨b, hb, hkb⟩
      rcases lt_trichotomy m s.heap.length with hlt | rfl | hgt
      · rw [List.getElem?_append_left hlt] at hb
        exact (hw k m).mpr ⟨b, hb, hkb⟩
      · rw [List.getElem?_concat_length] at hb
        obtain rfl : n = b := Option.some.inj hb
        exact absurd hkb.symm hkn
      · rw [List.getElem?_append_right (le_of_lt hgt)] at hb
        rw [List.getElem?_eq_none (by simp; omega)] at hb
        cases hb

/-- `push` preserves the coherence invariant. -/
theorem Wf_push {α : Type} [LinearOrder α] (s : HeapSt α) (n : HNode α)
    (hw : Wf s) : Wf (push s n) := by
  rw [push]
  cases hk : s.nodeMap (getKey n) with
  | some index =>
    obtain ⟨old, hold, holdk⟩ := (hw (getKey n) index).mp hk
    dsimp only
    rw [hold]
    dsimp only
    have hw' := Wf_set_same_key s n old index hold holdk hw
    split_ifs
    · rw [heapifyUp]
      exact Wf_heapifyUpAux _ _ _ hw'
    · rw [heapifyDown]
      exact Wf_heapifyDownAux _ _ _ hw'
    · exact hw'
  | none =>
    dsimp only
    rw [heapifyUp]
    exact Wf_heapifyUpAux _ _ _ (Wf_append_new s n hk hw)

/-- `push` on an already-present coordinate replaces in place: the heap does
not grow. -/
theorem push_length_existing {α : Type} [LinearOrder α] (s : HeapSt α)
    (n : HNode α) (hw : Wf s) (i : ℕ) (hk : s.nodeMap (getKey n) = some i) :
    (push s n).heap.length = s.heap.length := by
  rw [push, hk]
  obtain ⟨old, hold, -⟩ := (hw (getKey n) i).mp hk
  dsimp only
  rw [hold]
  dsimp only
  split_ifs
  · rw [heapifyUp, heapifyUpAux_length]
    simp
  · rw [heapifyDown, heapifyDownAux_length]
    simp
  · simp

/-- `push` on a fresh coordinate appends exactly one slot. -/
theorem push_length_new {α : Type} [LinearOrder α] (s : HeapSt α) (n : HNode α)
    (hk : s.nodeMap (getKey n) = none) :
    (push s n).heap.length = s.heap.length + 1 := by
  rw [push, hk]
  dsimp only
  rw [heapifyUp, heapifyUpAux_length]
  simp

/-- `pop` preserves the coherence invariant. -/
theorem Wf_pop {α : Type} [LinearOrder α] (s : HeapSt α) (hw : Wf s) :
    Wf (pop s).2 := by
  rcases hh : s.heap with _ | ⟨a, _ | ⟨b, t⟩⟩
  · rw [pop, hh]
    exact hw
  · rw [pop, hh]
    intro k i
    simp
  · rw [pop, hh]
    dsimp only
    apply Wf_heapifyDownAux
    generalize hlastdef : (a :: b :: t).getLast (by simp) = last
    have hlastElem : (a :: b :: t)[t.length + 1]? = some last := by
      rw [← hlastdef, List.getLast_eq_getElem]
      exact List.getElem?_eq_getElem (by simp)
    have ha0 : (a :: b :: t)[0]? = some a := rfl
    have hsa : s.heap[0]? = some a := by rw [hh]; exact ha0
    have hslast : s.heap[t.length + 1]? = some last := by rw [hh]; exact hlastElem
    have hwa : s.nodeMap (getKey a) = some 0 := (hw (getKey a) 0).mpr ⟨a, hsa, rfl⟩
    have hwlast : s.nodeMap (getKey last) = some (t.length + 1) :=
      (hw (getKey last) (t.length + 1)).mpr ⟨last, hslast, rfl⟩
    have hkal : getKey a ≠ getKey last := by
      intro he
      have h01 : (0 : ℕ) = t.length + 1 := Wf_unique s hw 0 (t.length + 1) a last hsa hslast he
      omega
    have hnew : ∀ m, ((a :: b :: t).dropLast.set 0 last)[m]? =
        if m = 0 then some last
        else if m < t.length + 1 then (a :: b :: t)[m]? else none := by
      intro m
      rw [List.getElem?_set]
      have hdl : (a :: b :: t).dropLast.length = t.length + 1 := by
        simp [List.length_dropLast]
      rcases eq_or_ne m 0 with rfl | hm0
      · simp [hdl]
      · rw [if_neg (Ne.symm hm0), if_neg hm0, List.getElem?_dropLast]
        simp only [List.length_cons]
        rcases lt_or_ge m (t.length + 1) with hmlt | hmge
        · rw [if_pos (by omega), if_pos hmlt]
        · rw [if_neg (by omega), if_neg (by omega)]
    intro k m
    dsimp only
    simp only [mapSet, mapDelete, hnew]
    by_cases hkl : k = getKey last
    · rw [if_pos hkl]
      constructor
      · intro hm
        obtain rfl : (0 : ℕ) = m := Option.some.inj hm
        exact ⟨last, by rw [if_pos rfl], hkl.symm⟩
      · rintro ⟨nn, hn, hkn⟩
        rcases eq_or_ne m 0 with rfl | hm0
        · rfl
        · rw [if_neg hm0] at hn
          rcases lt_or_ge m (t.length + 1) with hmlt | hmge
          · rw [if_pos hmlt] at hn
            have hsm : s.nodeMap (getKey last) = some m :=
              (hw (getKey last) m).mpr ⟨nn, by rw [hh]; exact hn, by rw [hkn, hkl]⟩
            rw [hwlast] at hsm
            have := Option.some.inj hsm
            omega
          · rw [if_neg (by omega)] at hn
            cases hn
    · rw [if_neg hkl]
      by_cases hka : k = getKey a
      · rw [if_pos hka]
        constructor
        · intro hm
          cases hm
        · rintro ⟨nn, hn, hkn⟩
          exfalso
          rcases eq_or_ne m 0 with rfl | hm0
          · rw [if_pos rfl] at hn
            obtain rfl : last = nn := Option.some.inj hn
            exact hkl (hkn.symm)
          · rw [if_neg hm0] at hn
            rcases lt_or_ge m (t.length + 1) with hmlt | hmge
            · rw [if_pos hmlt] at hn
              have hsm : s.nodeMap (getKey a) = some m :=
                (hw (getKey a) m).mpr ⟨nn, by rw [hh]; exact hn, by rw [hkn, hka]⟩
              rw [hwa] at hsm
              exact hm0 (Option.some.inj hsm).symm
            · rw [if_neg (by omega)] at hn
              cases hn
      · rw [if_neg hka]
        constructor
        · intro hm
          obtain ⟨nn, hn, hkn⟩ := (hw k m).mp hm
          rw [hh] at hn
          have hm0 : m ≠ 0 := by
            rintro rfl
            rw [ha0] at hn
            obtain rfl : a = nn := Option.some.inj hn
            exact hka hkn.symm
          have hmlast : m ≠ t.length + 1 := by
            rintro rfl
            rw [hlastElem] at hn
            obtain rfl : last = nn := Option.some.inj hn
            exact hkl hkn.symm
          obtain ⟨hmlt, -⟩ := List.getElem?_eq_some.mp hn
          simp only [List.length_cons] at hmlt
          refine ⟨nn, ?_, hkn⟩
          rw [if_neg hm0, if_pos (by omega)]
          exact hn
        · rintro ⟨nn, hn, hkn⟩
          rcases eq_or_ne m 0 with rfl | hm0
          · rw [if_pos rfl] at hn
            obtain rfl : last = nn := Option.some.inj hn
            exact absurd hkn.symm hkl
          · rw [if_neg hm0] at hn
            rcases lt_or_ge m (t.length + 1) with hmlt | hmge
            · rw [if_pos hmlt] at hn
              exact (hw k m).mpr ⟨nn, by rw [hh]; exact hn, hkn⟩
            · rw [if_neg (by omega)] at hn
              cases hn

/-- C10: the open-set uniqueness invariant. The heap starts well-formed
(`new BinaryHeap()`), and well-formedness — the node map binds a coordinate
to an index exactly when that slot holds a node with that coordinate — is
preserved by every `swap` (at in-bounds indices), every `push`, and every
`pop`; since `findPath`'s search touches its heap only through these
operations, every reachable heap state satisfies it. Moreover a `push`
whose coordinate is already present replaces in place (the heap length is
unchanged; a fresh coordinate grows it by exactly one), and well-formedness
entails at-most-one-entry-per-coordinate for the heap after any push. -/
theorem heap_openset_uniqueness {α : Type} [LinearOrder α] (s : HeapSt α)
    (n : HNode α) (hs : Wf s) :
    Wf (emptyHeap α)
    ∧ (∀ i j, i < s.heap.length → j < s.heap.length → Wf (swapOp s i j))
    ∧ Wf (push s n)
    ∧ Wf (pop s).2
    ∧ (∀ i, s.nodeMap (getKey n) = some i →
        (push s n).heap.length = s.heap.length)
    ∧ (s.nodeMap (getKey n) = none →
        (push s n).heap.length = s.heap.length + 1)
    ∧ (∀ (i j : ℕ) (a b : HNode α),
        (push s n).heap[i]? = some a → (push s n).heap[j]? = some b →
        getKey a = getKey b → i = j) :=
  ⟨Wf_empty α,
   fun i j hi hj => Wf_swapOp s i j hs hi hj,
   Wf_push s n hs,
   Wf_pop s hs,
   fun i hi => push_length_existing s n hs i hi,
   fun hnone => push_length_new s n hnone,
   fun i j a b ha hb hk => Wf_unique (push s n) (Wf_push s n hs) i j a b ha hb hk⟩

/-- C10 witness: the invariant at the concrete empty rational-scored heap
and a concrete node — pushing onto the empty heap grows it to one slot. -/
theorem heap_openset_uniqueness_witness :
    Wf (emptyHeap ℚ)
    ∧ ((emptyHeap ℚ).nodeMap (getKey (.mk 0 0 0 0 0 none)) = none →
        (push (emptyHeap ℚ) (.mk 0 0 0 0 0 none)).heap.length
          = (emptyHeap ℚ).heap.length + 1) :=
  ⟨Wf_empty ℚ,
   (heap_openset_uniqueness (emptyHeap ℚ) (.mk 0 0 0 0 0 none)
      (Wf_empty ℚ)).2.2.2.2.2.1⟩

/-- C8 witness: the amended dimension property at the concrete call
`generateMap zeroNoise 3 2`, whose rows are `[0, 0, 0]`. -/
theorem generateMap_dims_witness :
    (generateMap zeroNoise 3 2).length = (2 : ℤ).toNat
    ∧ ([(0 : ℚ), 0, 0]).length = (3 : ℤ).toNat := by
  refine ⟨(generateMap_dims zeroNoise 3 2).1, ?_⟩
  exact (generateMap_dims zeroNoise 3 2).2 [(0 : ℚ), 0, 0] (by with_unfolding_all decide)

end MapRouting
